import Mathlib

/-!
Verification of the Bash value serialization layer of the
`mkinitcpio-compression-benchmark` repository.

Byte strings are modelled as `List Nat` (each element one byte). The repository
treats a restricted external Bash process as the authority for quoting and
unquoting; that external interpreter (together with the few repository
functions that are only declared by callers but whose defining module is not
present in the sources) is modelled from the specification as an explicit
`ShellOracle` parameter. Everything else is translated directly from the
Rust sources.
-/

namespace MkinitcpioBench

/-- Encoding of one character as UTF-8 bytes. -/
def utf8Bytes (c : Char) : List Nat :=
  let n := c.toNat
  if n < 128 then [n]
  else if n < 2048 then [192 + n / 64, 128 + n % 64]
  else if n < 65536 then [224 + n / 4096, 128 + (n / 64) % 64, 128 + n % 64]
  else [240 + n / 262144, 128 + (n / 4096) % 64, 128 + (n / 64) % 64, 128 + n % 64]

/-- Bytes of a Rust string literal (`str::as_bytes`), used to write concrete
byte strings in claims and witnesses. -/
def strBytes (s : String) : List Nat :=
  s.data.flatMap utf8Bytes

/-- Whitespace test for a byte, as used by `str::trim` / `[u8]::trim_ascii`
on the ASCII range (space, tab, line feed, vertical tab, form feed,
carriage return). -/
def isWsByte (b : Nat) : Bool :=
  b == 32 || b == 9 || b == 10 || b == 11 || b == 12 || b == 13

/-- Drop trailing whitespace bytes, helper for `trimBytes`. -/
def trimEnd (l : List Nat) : List Nat :=
  (l.reverse.dropWhile isWsByte).reverse

/-- Trim whitespace bytes from both ends, modelling Rust's `str::trim` /
`trim_ascii` on byte strings. -/
def trimBytes (l : List Nat) : List Nat :=
  trimEnd (l.dropWhile isWsByte)

/-- Test whether a byte list consists only of whitespace, modelling
`text.trim().is_empty()`. -/
def trimIsEmpty (l : List Nat) : Bool :=
  l.all isWsByte

namespace legacy

/-!
Embedding of `src/bash/mod.rs` (the earlier iteration of the bash module that
is present in the sources): `BashValue`, `BashValue::is_array` and
`parse_vars`.
-/

/-- Bash variable value as captured from shell output: `BashValue` of
`src/bash/mod.rs`, a wrapper around the source text of the value. -/
structure BashValue where
  /-- Source text of the value, as understood by bash (`content` field). -/
  content : List Nat
  deriving Repr, DecidableEq

/-- Constructor `BashValue::new`, copying the value text. -/
def BashValue.new (content : List Nat) : BashValue :=
  { content := content }

/-- Classification `BashValue::is_array` of `src/bash/mod.rs`:
`matches!(self.content.data.first().copied(), Some(b'('))` — the check looks
only at the first byte. -/
def BashValue.is_array (v : BashValue) : Bool :=
  v.content.head? == some 40

/-- Result of splitting shell output into candidate assignment lines:
`text.split(|&ch| ch == b'\n').filter(|line| !line.is_empty())` from
`parse_vars` in `src/bash/mod.rs`. -/
def nonEmptyLines (text : List Nat) : List (List Nat) :=
  (text.splitOn 10).filter (fun line => !line.isEmpty)

/-- Position of the first `=` byte in a line, modelling
`line.iter().position(|&ch| ch == b'=')`. -/
def position61 : List Nat → Option Nat
  | [] => none
  | c :: cs => if c == 61 then some 0 else (position61 cs).map (fun i => i + 1)

/-- Parse a single `VARNAME=VALUE` line: the closure inside `parse_vars`.
The error carries the fixed message together with the offending line (the
Rust code interpolates the line lossily into the message). -/
def parseLine (line : List Nat) : Except (String × List Nat) (List Nat × BashValue) :=
  match position61 line with
  | none => .error ("missing variable assignment", line)
  | some idx => .ok (line.take idx, BashValue.new (line.drop (idx + 1)))

/-- Short-circuiting map over a list in `Except`, modelling
`.map(...).collect::<Result<_, _>>()`: the first error aborts. -/
def mapE {α β ε : Type} (f : α → Except ε β) : List α → Except ε (List β)
  | [] => .ok []
  | x :: xs =>
    match f x with
    | .error e => .error e
    | .ok y => (mapE f xs).map (fun ys => y :: ys)

/-- Parser `parse_vars` of `src/bash/mod.rs`: split the output at newlines,
keep the non-empty lines, and split each at its first `=` into name and
value. (The Rust code collects into a `HashMap`; the embedding returns the
association list of parsed entries, which determines that map.) -/
def parse_vars (text : List Nat) : Except (String × List Nat) (List (List Nat × BashValue)) :=
  mapE parseLine (nonEmptyLines text)

end legacy

/-!
Embedding of `is_array_source` from `src/bash/array.rs`.
-/

/-- Heuristic `is_array_source` of `src/bash/array.rs`: the text is enclosed
in parentheses, checking only the first and last byte. -/
def is_array_source (text : List Nat) : Bool :=
  text.head? == some 40 && text.getLast? == some 41

/-!
Embedding of `rbash_at` from `src/bash/exec.rs` (the post-wait half: how the
captured `std::process::Output` is turned into a result). Spawning, the
stdin pipe and the log calls are process-level I/O outside the model.
-/

/-- Captured output of the bash subprocess, modelling `std::process::Output`
as consumed by `rbash_at`: exit success flag, exit code when the process
exited normally, raw stdout bytes, and the stderr text (the Rust code decodes
stderr with `String::from_utf8_lossy`; the model starts from the decoded
text, kept as a byte list). -/
structure ProcessOutput where
  /-- Whether `output.status.success()` holds. -/
  success : Bool
  /-- Value of `output.status.code()`. -/
  code : Option Int
  /-- The captured stdout bytes. -/
  stdout : List Nat
  /-- The captured stderr text. -/
  stderr : List Nat
  deriving Repr, DecidableEq

/-- Render a decoded text, kept as a byte list, back into a `String` for the
error message. -/
def bytesToString (l : List Nat) : String :=
  String.mk (l.map Char.ofNat)

/-- Error message shape `(code, stderr)` of `rbash_at`. -/
def msgCodeStderr (code : Int) (stderr : List Nat) : String :=
  "bash script failed (status = " ++ toString code ++ "): " ++ bytesToString stderr

/-- Error message shape `(code only)` of `rbash_at`. -/
def msgCodeOnly (code : Int) : String :=
  "bash script failed (status = " ++ toString code ++ ")"

/-- Error message shape `(stderr only)` of `rbash_at`. -/
def msgStderrOnly (stderr : List Nat) : String :=
  "bash script failed: " ++ bytesToString stderr

/-- Error message shape `(neither)` of `rbash_at`. -/
def msgNeither : String :=
  "bash script failed"

/-- Result computation of `rbash_at` in `src/bash/exec.rs` after the
subprocess has been waited for: on success the stdout bytes are returned
(stderr is only logged); on failure one of four error messages is built,
selected by `(output.status.code(), stderr.trim().is_empty())`. -/
def rbash_result (o : ProcessOutput) : Except String (List Nat) :=
  if o.success then
    .ok o.stdout
  else
    match o.code, trimIsEmpty o.stderr with
    | some code, false => .error (msgCodeStderr code o.stderr)
    | some code, true => .error (msgCodeOnly code)
    | none, false => .error (msgStderrOnly o.stderr)
    | none, true => .error msgNeither

/-!
Embedding of `src/bash/string.rs` and `src/bash/array.rs`. These modules do
not implement Bash's quoting grammar themselves: every conversion runs a
script through the external restricted Bash subprocess. That subprocess is
modelled as an explicit `ShellOracle` value.
-/

/-- Modelled from the spec: the external restricted Bash interpreter used as
the single source of truth for quoting and escaping (spec section 4.1,
"Shell Oracle"). Each field captures the observable result of one script
shape the repository pipes into the subprocess; the repository code itself
only assembles the scripts and consumes these outputs. -/
structure ShellOracle where
  /-- Output of the `escape` script of `src/bash/string.rs`: writing `data`
  to a temp file and reading `OUTPUT="$(cat file)"` back through the oracle
  yields the canonical quoted source reported by `declare`. -/
  escapeOut : List Nat → Option (List Nat)
  /-- Output of the `unescape` script of `src/bash/string.rs`: the bytes
  printed by `INPUT=<text>` followed by `echo -n "$INPUT"`. -/
  evalAssign : List Nat → Option (List Nat)
  /-- Modelled from the spec (section 4.3): result of the array probe of
  `parse_array_content` in `src/bash/array.rs` — declaring an indexed array
  from the source text and printing `%q=%q` per key — with each printed line
  already split into its integer key and `%q`-quoted value (the splitting
  itself is done by the newer `parse_vars`, whose module is not present in
  the sources). -/
  arrayEntries : List Nat → Option (List (Int × List Nat))
  /-- Output (`OUTPUT` sentinel source text) of the `${ARRAY[*]}` script of
  `BashArray::to_concatenated_string` in `src/bash/array.rs`. -/
  concatOut : List Nat → Option (List Nat)
  /-- Output (`OUTPUT` sentinel source text) of the `read -r -a` script of
  `BashString::arrayize` in `src/bash/string.rs`. -/
  arrayizeOut : List Nat → Option (List Nat)
  /-- Output (`OUTPUT` sentinel source text) of the `mapfile -d` script of
  `BashString::mapfile` in `src/bash/string.rs`, given the delimiter byte
  and the escaped input string. -/
  mapfileOut : Nat → List Nat → Option (List Nat)
  /-- Modelled from the spec (section 4.4): sourcing a file and running
  `declare` (`bash::source`), already split into `(name, value text)` pairs
  per non-blank line (the splitting is done by the newer `parse_vars`,
  whose module is not present in the sources). Bash prints each variable
  once, so the names are unique. -/
  sourceFile : List Nat → Option (List (List Nat × List Nat))

/-- Function `escape` of `src/bash/string.rs`: ask the oracle for the
canonical quoted form of raw bytes (the temp-file plumbing is I/O outside
the model). -/
def escape (o : ShellOracle) (data : List Nat) : Option (List Nat) :=
  o.escapeOut data

/-- Function `unescape` of `src/bash/string.rs`: the command interpolates
`text.trim()`, then the oracle evaluates the assignment. -/
def unescape (o : ShellOracle) (text : List Nat) : Option (List Nat) :=
  o.evalAssign (trimBytes text)

/-- Representation of `BashString` of `src/bash/string.rs`: the quoted
(`escaped`) and unquoted (`raw`) forms of one value. -/
structure BashString where
  /-- Quoted version of the string. -/
  escaped : List Nat
  /-- Unquoted version of the string. -/
  raw : List Nat
  deriving Repr, DecidableEq

/-- Constructor `BashString::from_raw` (via `from_raw_boxed`): keep the raw
bytes, quote them through the oracle. -/
def BashString.from_raw (o : ShellOracle) (bytes : List Nat) : Option BashString :=
  (escape o bytes).map (fun escaped => { escaped := escaped, raw := bytes })

/-- Constructor `BashString::from_escaped` (via `from_escaped_boxed`): keep
the quoted text, resolve the raw bytes through the oracle. -/
def BashString.from_escaped (o : ShellOracle) (text : List Nat) : Option BashString :=
  (unescape o text).map (fun raw => { escaped := text, raw := raw })

/-- Accessor `BashString::source`: the quoted form. -/
def BashString.source (s : BashString) : List Nat :=
  s.escaped

/-- Accessor `BashString::as_raw`: the unquoted form. -/
def BashString.as_raw (s : BashString) : List Nat :=
  s.raw

/-- Method `BashString::reescape`: recreate the quoted string from its byte
contents. -/
def BashString.reescape (o : ShellOracle) (s : BashString) : Option BashString :=
  BashString.from_raw o s.as_raw

/-- Comparison `impl PartialEq<T> for BashString` at `T = BashString`:
`self.as_raw().eq(other.as_ref())` compares the raw bytes only. -/
def BashString.beq (a b : BashString) : Bool :=
  a.as_raw == b.as_raw

/-- Hashing `impl Hash for BashString`: `self.as_raw().hash(state)` feeds
only the raw bytes to the hasher, modelled as an arbitrary function from
byte strings to hash values. -/
def BashString.hashWith (h : List Nat → Nat) (s : BashString) : Nat :=
  h s.as_raw

/-- Representation of `BashArray` of `src/bash/array.rs`: the quoted source
and the parsed `(index, string)` pairs. -/
structure BashArray where
  /-- Quoted version of the array. -/
  source : List Nat
  /-- Parsed list of `(index, string)` pairs. -/
  content : List (Int × BashString)
  deriving Repr, DecidableEq

/-- Short-circuiting map over a list in `Option`, modelling fallible
iteration that stops at the first failure. -/
def mapO {α β : Type} (f : α → Option β) : List α → Option (List β)
  | [] => some []
  | x :: xs =>
    match f x with
    | none => none
    | some y => (mapO f xs).map (fun ys => y :: ys)

/-- Function `parse_array_content` of `src/bash/array.rs`: reject text that
is not enclosed in parentheses, then decode the oracle's `(key, value)`
probe output, resolving each value with `BashString::from_escaped`. -/
def parse_array_content (o : ShellOracle) (text : List Nat) : Option (List (Int × BashString)) :=
  if !is_array_source text then
    none
  else
    (o.arrayEntries text).bind
      (fun pairs => mapO (fun p => (BashString.from_escaped o p.2).map (fun s => (p.1, s))) pairs)

/-- Constructor `BashArray::new` (via `new_from_boxed`): parse the trimmed
source, keep the original source text. -/
def BashArray.new (o : ShellOracle) (source : List Nat) : Option BashArray :=
  (parse_array_content o (trimBytes source)).map (fun content => { source := source, content := content })

/-- Method `BashArray::to_bash_string`: resolve the array source as a
string, keeping only the first element (Bash's `$ARRAY`). -/
def BashArray.to_bash_string (o : ShellOracle) (arr : BashArray) : Option BashString :=
  BashString.from_escaped o arr.source

/-- Method `BashArray::to_concatenated_string`: join the values through the
oracle's `${ARRAY[*]}` script, then resolve the sentinel output. -/
def BashArray.to_concatenated_string (o : ShellOracle) (arr : BashArray) : Option BashString :=
  (o.concatOut arr.source).bind (fun out => BashString.from_escaped o out)

/-- Method `BashString::arrayize` of `src/bash/string.rs`: word-split the
escaped string through the oracle's `read -r -a` script and parse the
resulting array source. -/
def BashString.arrayize (o : ShellOracle) (s : BashString) : Option BashArray :=
  (o.arrayizeOut s.escaped).bind (fun out => BashArray.new o out)

/-- Method `BashString::mapfile` of `src/bash/string.rs`: split the escaped
string at the delimiter through the oracle's `mapfile -d` script and parse
the resulting array source. -/
def BashString.mapfile (o : ShellOracle) (delimiter : Nat) (s : BashString) : Option BashArray :=
  (o.mapfileOut delimiter s.escaped).bind (fun out => BashArray.new o out)

/-- Values of the array entries, `BashArray::values` (the second components
of `content`, in order). -/
def BashArray.valuesList (arr : BashArray) : List BashString :=
  arr.content.map Prod.snd

/-- Space-join of byte strings, helper for the canonical array rendering of
`impl Display for BashArray`. -/
def joinSpace (sources : List (List Nat)) : List Nat :=
  List.intercalate [32] sources

/-- Parenthesized space-join, the textual form `impl Display for BashArray`
writes: `(` then the value sources separated by spaces then `)`. -/
def renderParen (sources : List (List Nat)) : List Nat :=
  40 :: joinSpace sources ++ [41]

/-- Modelled from the spec: `BashArray::reescape` (the method is invoked by
`src/mkinitcpio/config.rs` and `src/mkinitcpio/preset.rs` but its defining
module revision is not present in the sources). Per spec section 4.2 it
"recomputes the canonical quoted form from the raw bytes, discarding any
original, non-canonical quoting": every value is re-quoted canonically, the
source becomes the parenthesized space-join of the canonical value sources
(the form `impl Display for BashArray` writes and the repository's
round-trip test observes), and the keys become the indices Bash assigns to
that canonical literal, `0, 1, 2, ...` in order. -/
def BashArray.reescape (o : ShellOracle) (arr : BashArray) : Option BashArray :=
  (mapO (fun s => BashString.from_raw o s.raw) arr.valuesList).map
    (fun strs =>
      { source := renderParen (strs.map BashString.escaped),
        content := strs.enum.map (fun p => ((p.1 : Int), p.2)) })

/-- Entry comparison for the derived `PartialEq` on `BashArray`: tuples
compare componentwise, and the `BashString` component compares by raw bytes
(its only `PartialEq` impl). -/
def entryBeq (a b : Int × BashString) : Bool :=
  a.1 == b.1 && BashString.beq a.2 b.2

/-- Pointwise comparison of the `content` slices for the derived
`PartialEq` on `BashArray`. -/
def contentBeq : List (Int × BashString) → List (Int × BashString) → Bool
  | [], [] => true
  | a :: as, b :: bs => entryBeq a b && contentBeq as bs
  | _, _ => false

/-- Derived `PartialEq` on `BashArray` (`#[derive(PartialEq)]`): both the
`source` field and the `content` field must be equal. -/
def BashArray.beq (a b : BashArray) : Bool :=
  a.source == b.source && contentBeq a.content b.content

/-- Value loop of `impl PartialEq<I> for BashArray`: walk the array's
values and the other iterator in lockstep, comparing each value's raw bytes
against the other side. -/
def eqValuesLoop : List BashString → List (List Nat) → Bool
  | [], [] => true
  | a :: as, b :: bs => if a.as_raw == b then eqValuesLoop as bs else false
  | _, _ => false

/-- Comparison `impl PartialEq<I> for BashArray` against a plain sequence
of byte strings: only the values take part, neither the indices nor the
source text. -/
def BashArray.eqValues (arr : BashArray) (other : List (List Nat)) : Bool :=
  eqValuesLoop arr.valuesList other

/-!
Embedding of the environment layer used by `src/mkinitcpio/config.rs` and
`src/mkinitcpio/preset.rs`. Those files consume an enum `BashValue` with
`String` and `Array` variants and a `bash::source` function from the newer
revision of `src/bash/mod.rs`, which is not present in the sources; both
are modelled from the spec (sections 3 and 4.4).
-/

/-- Modelled from the spec: the newer `BashValue`, "a tagged union of
{Scalar, Array}" (spec section 3), as consumed by
`src/mkinitcpio/config.rs` and `src/mkinitcpio/preset.rs`; the defining
module revision is not present in the sources. -/
inductive BashValueE where
  /-- Scalar variant `BashValue::String`. -/
  | string (s : BashString)
  /-- Array variant `BashValue::Array`. -/
  | array (a : BashArray)
  deriving Repr, DecidableEq

/-- Modelled from the spec (section 4.4): classification of one parsed
variable value — "classifies the remainder as Array if `is_array_source`
holds, else Scalar, decoding accordingly". The decoding follows the codecs
present in the sources (`BashArray::new`, `BashString::from_escaped`). -/
def classifyValue (o : ShellOracle) (txt : List Nat) : Option BashValueE :=
  if is_array_source txt then
    (BashArray.new o txt).map BashValueE.array
  else
    (BashString.from_escaped o txt).map BashValueE.string

/-- Environment produced by sourcing a file: a mapping from variable name
to value, with unique keys (spec section 3, "Environment"). -/
def EnvM : Type :=
  List (List Nat × BashValueE)

/-- Lookup in an environment (unique keys, so the first match is the
binding). -/
def envGet (env : EnvM) (name : List Nat) : Option BashValueE :=
  List.lookup name env

/-- Modelled from the spec (section 4.4): `bash::source` — source the file,
run `declare`, split the output into `(name, value text)` lines (the
oracle's `sourceFile`), then classify and decode each value. -/
def sourceModel (o : ShellOracle) (file : List Nat) : Option EnvM :=
  (o.sourceFile file).bind
    (fun pairs => mapO (fun p => (classifyValue o p.2).map (fun v => (p.1, v))) pairs)

/-!
Embedding of `src/mkinitcpio/config.rs`.
-/

/-- Record `Config` of `src/mkinitcpio/config.rs`: the seven recognized
mkinitcpio variables, each optional. -/
structure Config where
  /-- Modules to include (`MODULES`). -/
  modules : Option BashArray
  /-- Binaries to include (`BINARIES`). -/
  binaries : Option BashArray
  /-- Additional files (`FILES`). -/
  files : Option BashArray
  /-- Hooks (`HOOKS`). -/
  hooks : Option BashArray
  /-- Compression algorithm (`COMPRESSION`). -/
  compression : Option BashString
  /-- Compression options (`COMPRESSION_OPTIONS`). -/
  compression_options : Option BashArray
  /-- Module decompression flag (`MODULES_DECOMPRESS`). -/
  module_decompress : Option BashString
  deriving Repr, DecidableEq

/-- Helper `as_string` inside `Config::load_config`: coerce a value to a
string (arrays by concatenation), then re-escape to canonical form. -/
def configAsString (o : ShellOracle) (v : BashValueE) : Option BashString := do
  let string ← match v with
    | .string s => some s
    | .array a => a.to_concatenated_string o
  string.reescape o

/-- Helper `as_array` inside `Config::load_config`: coerce a value to an
array (strings by word-splitting with `arrayize`), then re-escape to
canonical form. -/
def configAsArray (o : ShellOracle) (v : BashValueE) : Option BashArray := do
  let array ← match v with
    | .string s => s.arrayize o
    | .array a => some a
  array.reescape o

/-- Model of `.map(f).transpose()?` on an optional field: an absent
variable stays absent, a present one must convert. -/
def optField {α β : Type} (f : α → Option β) : Option α → Option (Option β)
  | none => some none
  | some v => (f v).map some

/-- Loader `Config::load_config`: source the file, then pull each of the
seven recognized variables out of the environment and coerce it to its
field's shape. (The Rust code removes each name from a `HashMap`; with the
unique keys `declare` produces, removal and lookup agree.) -/
def load_config (o : ShellOracle) (file : List Nat) : Option Config := do
  let env ← sourceModel o file
  let modules ← optField (configAsArray o) (envGet env (strBytes "MODULES"))
  let binaries ← optField (configAsArray o) (envGet env (strBytes "BINARIES"))
  let files ← optField (configAsArray o) (envGet env (strBytes "FILES"))
  let hooks ← optField (configAsArray o) (envGet env (strBytes "HOOKS"))
  let compression ← optField (configAsString o) (envGet env (strBytes "COMPRESSION"))
  let compression_options ← optField (configAsArray o) (envGet env (strBytes "COMPRESSION_OPTIONS"))
  let module_decompress ← optField (configAsString o) (envGet env (strBytes "MODULES_DECOMPRESS"))
  pure
    { modules := modules, binaries := binaries, files := files, hooks := hooks,
      compression := compression, compression_options := compression_options,
      module_decompress := module_decompress }

/-- One `NAME=value` line of `impl fmt::Display for Config` (the `writeln!`
in `write_var!`). -/
def displayLine (name : List Nat) (src : List Nat) : List Nat :=
  name ++ [61] ++ src ++ [10]

/-- Optional line for a string field in the `Display` output. -/
def optLineStr (name : List Nat) : Option BashString → List Nat
  | none => []
  | some s => displayLine name s.source

/-- Optional line for an array field in the `Display` output. -/
def optLineArr (name : List Nat) : Option BashArray → List Nat
  | none => []
  | some a => displayLine name a.source

/-- Serializer `impl fmt::Display for Config` (the text `Config::save_to`
writes): one `NAME=value` line per present field, in the fixed field order,
using each value's quoted source. -/
def Config.display (c : Config) : List Nat :=
  optLineArr (strBytes "MODULES") c.modules
    ++ optLineArr (strBytes "BINARIES") c.binaries
    ++ optLineArr (strBytes "FILES") c.files
    ++ optLineArr (strBytes "HOOKS") c.hooks
    ++ optLineStr (strBytes "COMPRESSION") c.compression
    ++ optLineArr (strBytes "COMPRESSION_OPTIONS") c.compression_options
    ++ optLineStr (strBytes "MODULES_DECOMPRESS") c.module_decompress

/-!
Embedding of `src/mkinitcpio/preset.rs` (the per-preset parsing,
`Preset::parse_preset`).
-/

/-- Record `Preset` of `src/mkinitcpio/preset.rs`. -/
structure Preset where
  /-- Filename of the preset file. -/
  filename : BashString
  /-- Name of the preset in `PRESETS`. -/
  name : BashString
  /-- Kernel version (`<name>_kver`, fallback `ALL_kver`). -/
  kver : Option BashString
  /-- Config path (`<name>_config`, fallback `ALL_config`). -/
  config : Option BashString
  /-- Image output path (`<name>_image`, no fallback). -/
  image : Option BashString
  /-- UKI output path (`<name>_uki`, no fallback). -/
  uki : Option BashString
  /-- Legacy EFI image path (`<name>_efi_image`, no fallback). -/
  efi_image : Option BashString
  /-- Microcode path (`<name>_microcode`, fallback `ALL_microcode`). -/
  microcode : Option BashString
  /-- Extra CLI options (`<name>_options`, no fallback). -/
  options : Option BashArray
  deriving Repr, DecidableEq

/-- Helper `as_string` inside `Preset::parse_preset`: strings are
re-escaped, arrays concatenated (no re-escape on the array branch). -/
def presetAsString (o : ShellOracle) (v : BashValueE) : Option BashString :=
  match v with
  | .string s => s.reescape o
  | .array a => a.to_concatenated_string o

/-- Helper `as_array` inside `Preset::parse_preset`: strings are split at
spaces with `mapfile(b' ')` and re-escaped, arrays re-escaped. -/
def presetAsArray (o : ShellOracle) (v : BashValueE) : Option BashArray :=
  match v with
  | .string s => (s.mapfile o 32).bind (fun a => a.reescape o)
  | .array a => a.reescape o

/-- Variable lookup macro `var!` of `Preset::parse_preset`: the name is
`<prefix bytes>_<suffix bytes>` (the preset name contributes its raw
bytes via `AsRef<[u8]>`). -/
def varLookup (env : EnvM) (ns fld : List Nat) : Option BashValueE :=
  envGet env (ns ++ [95] ++ fld)

/-- Parser `Preset::parse_preset` of `src/mkinitcpio/preset.rs`: resolve
each field from `<name>_<field>`, with an `ALL_<field>` fallback for
`kver`, `config` and `microcode` only, in the evaluation order of the Rust
struct literal. -/
def parse_preset (o : ShellOracle) (filename : BashString) (env : EnvM) (name : BashString) :
    Option Preset := do
  let kver ← optField (presetAsString o)
    ((varLookup env name.raw (strBytes "kver")).orElse
      (fun _ => varLookup env (strBytes "ALL") (strBytes "kver")))
  let config ← optField (presetAsString o)
    ((varLookup env name.raw (strBytes "config")).orElse
      (fun _ => varLookup env (strBytes "ALL") (strBytes "config")))
  let uki ← optField (presetAsString o) (varLookup env name.raw (strBytes "uki"))
  let efi_image ← optField (presetAsString o) (varLookup env name.raw (strBytes "efi_image"))
  let image ← optField (presetAsString o) (varLookup env name.raw (strBytes "image"))
  let options ← optField (presetAsArray o) (varLookup env name.raw (strBytes "options"))
  let microcode ← optField (presetAsString o)
    ((varLookup env name.raw (strBytes "microcode")).orElse
      (fun _ => varLookup env (strBytes "ALL") (strBytes "microcode")))
  pure
    { filename := filename, name := name, kver := kver, config := config, image := image,
      uki := uki, efi_image := efi_image, microcode := microcode, options := options }

/-!
Canonical forms and the sourcing law for the save/load round trip.
-/

/-- Canonical form of a scalar: the escaped text is the oracle's canonical
quoting of the raw bytes — exactly what `BashString::from_raw` (and hence
`reescape`) produces. -/
def CanonStr (o : ShellOracle) (s : BashString) : Prop :=
  escape o s.raw = some s.escaped

/-- Canonical form of an array: every value is canonical, the source is the
parenthesized space-join of the value sources and the keys enumerate the
values from zero — exactly what `BashArray::reescape` produces. -/
def CanonArr (o : ShellOracle) (a : BashArray) : Prop :=
  (∀ s ∈ a.valuesList, CanonStr o s) ∧
    a.source = renderParen (a.valuesList.map BashString.escaped) ∧
    a.content = a.valuesList.enum.map (fun p => ((p.1 : Int), p.2))

/-- Reading a written scalar back: the declare-reported value text is not
array-shaped and evaluates to the scalar's raw bytes. -/
def ScalarReload (o : ShellOracle) (txt : List Nat) (s : BashString) : Prop :=
  is_array_source txt = false ∧ unescape o txt = some s.raw

/-- Reading a written array back: the declare-reported value text is
array-shaped (also after trimming) and its probe entries evaluate pointwise
to the raw bytes of the array's values. -/
def ArrayReload (o : ShellOracle) (txt : List Nat) (a : BashArray) : Prop :=
  is_array_source txt = true ∧ is_array_source (trimBytes txt) = true ∧
    ∃ pairs, o.arrayEntries (trimBytes txt) = some pairs ∧
      List.Forall₂ (fun (q : Int × List Nat) (s : BashString) => unescape o q.2 = some s.raw)
        pairs a.valuesList

/-- Lookup condition for one optional array field of the saved file. -/
def reloadsArr (o : ShellOracle) (env : List (List Nat × List Nat)) (name : List Nat) :
    Option BashArray → Prop
  | none => List.lookup name env = none
  | some a => ∃ txt, List.lookup name env = some txt ∧ ArrayReload o txt a

/-- Lookup condition for one optional string field of the saved file. -/
def reloadsStr (o : ShellOracle) (env : List (List Nat × List Nat)) (name : List Nat) :
    Option BashString → Prop
  | none => List.lookup name env = none
  | some s => ∃ txt, List.lookup name env = some txt ∧ ScalarReload o txt s

/-- Modelled from the spec (sections 4.1 and 4.4): sourcing the file written
by `Config::save_to` reports an environment whose entries all classify, in
which each written variable resolves to a value text equivalent to the
written one (scalars evaluate back to the same raw bytes, arrays report
entries that evaluate back to the same raw value bytes), and each unwritten
recognized variable is absent. This is the behavior of the external Bash
interpreter on the saved script, which no code under `src/` computes. -/
def SourcedSave (o : ShellOracle) (c : Config) : Prop :=
  ∃ env, o.sourceFile (Config.display c) = some env ∧
    (∀ p ∈ env, ∃ v, classifyValue o p.2 = some v) ∧
    reloadsArr o env (strBytes "MODULES") c.modules ∧
    reloadsArr o env (strBytes "BINARIES") c.binaries ∧
    reloadsArr o env (strBytes "FILES") c.files ∧
    reloadsArr o env (strBytes "HOOKS") c.hooks ∧
    reloadsStr o env (strBytes "COMPRESSION") c.compression ∧
    reloadsArr o env (strBytes "COMPRESSION_OPTIONS") c.compression_options ∧
    reloadsStr o env (strBytes "MODULES_DECOMPRESS") c.module_decompress

/-!
Oracle laws and a concrete witness oracle.
-/

/-- Modelled from the spec (section 3): the defining invariant of the
external oracle's quoting, `unescape(escaped) == raw`, for NUL-free byte
strings (the string-passing channel truncates at NUL, so the law is only
claimed away from NUL). -/
def RoundTripLaw (o : ShellOracle) : Prop :=
  ∀ b e, (0 : Nat) ∉ b → escape o b = some e → unescape o e = some b

/-- Concrete oracle used by witnesses: quoting is the identity on lower-case
words (a legal Bash behavior — bare words need no quotes), array probes
split the parenthesized interior at spaces, and sourcing splits assignment
lines at the first `=`. -/
def idOracle : ShellOracle where
  escapeOut := fun b => if b.all (fun c => 97 ≤ c && c ≤ 122) then some b else none
  evalAssign := fun t => some t
  arrayEntries := fun src =>
    some (((((src.drop 1).dropLast.splitOn 32).filter (fun w => !w.isEmpty)).enum).map
      (fun p => ((p.1 : Int), p.2)))
  concatOut := fun src =>
    some (joinSpace (((src.drop 1).dropLast.splitOn 32).filter (fun w => !w.isEmpty)))
  arrayizeOut := fun t => some (renderParen ((t.splitOn 32).filter (fun w => !w.isEmpty)))
  mapfileOut := fun d t => some (renderParen ((t.splitOn d).filter (fun w => !w.isEmpty)))
  sourceFile := fun file =>
    mapO (fun line => (legacy.position61 line).map (fun j => (line.take j, line.drop (j + 1))))
      (legacy.nonEmptyLines file)

/-!
Claims.
-/

/-- Helper: dropping while a predicate fails on every element changes
nothing. -/
theorem dropWhile_eq_self_of_all {p : Nat → Bool} (l : List Nat) (h : ∀ x ∈ l, p x = false) :
    l.dropWhile p = l := by
  cases l with
  | nil => rfl
  | cons x xs =>
    rw [List.dropWhile_cons, h x (List.mem_cons_self x xs)]
    simp

/-- Helper: trimming a byte string without whitespace changes nothing. -/
theorem trimBytes_eq_self (l : List Nat) (h : ∀ x ∈ l, isWsByte x = false) :
    trimBytes l = l := by
  unfold trimBytes trimEnd
  rw [dropWhile_eq_self_of_all l h,
    dropWhile_eq_self_of_all l.reverse (fun x hx => h x (List.mem_reverse.mp hx))]
  exact List.reverse_reverse l

/-- Helper: lower-case letters are not whitespace. -/
theorem lower_no_ws (b : List Nat) (h : b.all (fun c => 97 ≤ c && c ≤ 122) = true) :
    ∀ x ∈ b, isWsByte x = false := by
  intro x hx
  have := List.all_eq_true.mp h x hx
  simp only [Bool.and_eq_true, decide_eq_true_eq] at this
  simp only [isWsByte, Bool.or_eq_false_iff, beq_eq_false_iff_ne, ne_eq]
  omega

/-- Helper: the witness oracle satisfies the quoting round-trip law. -/
theorem idOracle_roundtrip : RoundTripLaw idOracle := by
  intro b e h0 he
  simp only [escape, idOracle] at he
  by_cases hall : b.all (fun c => 97 ≤ c && c ≤ 122) = true
  · rw [if_pos hall] at he
    injection he with he
    subst he
    simp only [unescape, idOracle, Option.some.injEq]
    exact trimBytes_eq_self b (lower_no_ws b hall)
  · rw [if_neg hall] at he
    exact absurd he (by simp)

/-- C6: for every string `text`, `is_array_source text` returns true if and
only if `text` is non-empty, its first byte is `(` and its last byte is `)`
— in particular true for `"()"` and `"(a b c)"`, false for `"just text"`,
`"(not closed"` and `"'()'"` — with no validation of balanced parentheses
or the interior. -/
theorem is_array_source_iff_wrapped :
    (∀ text : List Nat,
      is_array_source text = true ↔
        text ≠ [] ∧ text.head? = some 40 ∧ text.getLast? = some 41) ∧
    is_array_source (strBytes "()") = true ∧
    is_array_source (strBytes "(a b c)") = true ∧
    is_array_source (strBytes "just text") = false ∧
    is_array_source (strBytes "(not closed") = false ∧
    is_array_source (strBytes "'()'") = false := by
  refine ⟨fun text => ?_, by decide, by decide, by decide, by decide, by decide⟩
  simp only [is_array_source, Bool.and_eq_true, beq_iff_eq]
  constructor
  · rintro ⟨h1, h2⟩
    refine ⟨?_, h1, h2⟩
    rintro rfl
    simp at h1
  · rintro ⟨-, h1, h2⟩
    exact ⟨h1, h2⟩

/-- C3, counterexample: the claim says raw variable value text is classified
as an array exactly when `is_array_source` holds of it, but
`BashValue::is_array` in `src/bash/mod.rs` checks only the first byte: the
text `"(not closed"` is classified as an array although `is_array_source`
rejects it (no closing parenthesis). -/
theorem is_array_disagrees_with_is_array_source :
    (legacy.BashValue.new (strBytes "(not closed")).is_array = true ∧
    is_array_source (strBytes "(not closed") = false := by
  exact ⟨by decide, by decide⟩

/-- C3, amended: raw variable value text is classified as an array by
`BashValue::is_array` exactly when its first byte is `(`; whenever
`is_array_source` holds the text is classified as an array, but the
classification does not require the trailing `)`. -/
theorem is_array_first_byte_only :
    ∀ text : List Nat,
      ((legacy.BashValue.new text).is_array = true ↔ text.head? = some 40) ∧
      (is_array_source text = true → (legacy.BashValue.new text).is_array = true) := by
  intro text
  have hmain : (legacy.BashValue.new text).is_array = true ↔ text.head? = some 40 := by
    simp [legacy.BashValue.is_array, legacy.BashValue.new]
  refine ⟨hmain, fun hsrc => ?_⟩
  rw [hmain]
  simp only [is_array_source, Bool.and_eq_true, beq_iff_eq] at hsrc
  exact hsrc.1

/-- C3, witness for the amended theorem at the concrete input `"()"`. -/
theorem is_array_first_byte_only_witness :
    (legacy.BashValue.new (strBytes "()")).is_array = true :=
  (is_array_first_byte_only (strBytes "()")).2 (by decide)

/-- C1: for every NUL-free byte sequence, a successful
`BashString::from_raw` yields a string whose `as_raw` equals the input
bytes, and whose `source` text re-parses via `BashString::from_escaped` to
the same raw bytes, given the oracle's quoting round-trip law. -/
theorem from_raw_roundtrip :
    ∀ (o : ShellOracle) (bytes : List Nat) (s : BashString),
      RoundTripLaw o → (0 : Nat) ∉ bytes →
      BashString.from_raw o bytes = some s →
      s.as_raw = bytes ∧
        ∃ t : BashString, BashString.from_escaped o s.source = some t ∧ t.as_raw = bytes := by
  intro o bytes s hlaw h0 hs
  simp only [BashString.from_raw, Option.map_eq_some'] at hs
  obtain ⟨e, he, rfl⟩ := hs
  refine ⟨rfl, ⟨e, bytes⟩, ?_, rfl⟩
  simp only [BashString.from_escaped, BashString.source, hlaw bytes e h0 he, Option.map_some']

/-- C1, witness at the bytes `"abc"` with the concrete witness oracle. -/
theorem from_raw_roundtrip_witness :
    (⟨strBytes "abc", strBytes "abc"⟩ : BashString).as_raw = strBytes "abc" ∧
      ∃ t : BashString,
        BashString.from_escaped idOracle (⟨strBytes "abc", strBytes "abc"⟩ : BashString).source = some t ∧
          t.as_raw = strBytes "abc" :=
  from_raw_roundtrip idOracle (strBytes "abc") ⟨strBytes "abc", strBytes "abc"⟩
    idOracle_roundtrip (by decide) (by decide)

/-- C9: `reescape` is idempotent — whenever both calls succeed, re-escaping
an already re-escaped string returns it unchanged, both as a structure and
under the raw-byte equality of `PartialEq`. -/
theorem reescape_idempotent :
    ∀ (o : ShellOracle) (x y z : BashString),
      BashString.reescape o x = some y → BashString.reescape o y = some z →
      z = y ∧ BashString.beq z y = true := by
  intro o x y z hy hz
  simp only [BashString.reescape, BashString.from_raw, BashString.as_raw, Option.map_eq_some'] at hy hz
  obtain ⟨e, he, rfl⟩ := hy
  obtain ⟨f, hf, rfl⟩ := hz
  rw [he] at hf
  injection hf with hf
  subst hf
  exact ⟨rfl, by simp [BashString.beq]⟩

/-- C9, witness at the string `"abc"` with the concrete witness oracle. -/
theorem reescape_idempotent_witness :
    (⟨strBytes "abc", strBytes "abc"⟩ : BashString) = ⟨strBytes "abc", strBytes "abc"⟩ ∧
      BashString.beq ⟨strBytes "abc", strBytes "abc"⟩ ⟨strBytes "abc", strBytes "abc"⟩ = true :=
  reescape_idempotent idOracle ⟨strBytes "abc", strBytes "abc"⟩ _ _ (by decide) (by decide)

/-- C5: `BashString` equality holds exactly when the raw bytes agree, the
hash is a function of the raw bytes alone, and two strings with different
quoted sources but the same bytes are equal (and therefore hash alike): the
escaped form plays no role. -/
theorem bash_string_eq_hash_on_raw :
    (∀ a b : BashString, BashString.beq a b = true ↔ a.as_raw = b.as_raw) ∧
    (∀ (h : List Nat → Nat) (a : BashString), BashString.hashWith h a = h a.as_raw) ∧
    (∃ x y : BashString,
      x.escaped ≠ y.escaped ∧ BashString.beq x y = true ∧
        ∀ h : List Nat → Nat, BashString.hashWith h x = BashString.hashWith h y) := by
  refine ⟨fun a b => ?_, fun h a => rfl, ?_⟩
  · simp [BashString.beq]
  · refine ⟨⟨strBytes "'x'", strBytes "x"⟩, ⟨strBytes "$'x'", strBytes "x"⟩, by decide, by decide,
      fun h => rfl⟩

/-- C10: the derived equality on `BashArray` compares the stored `source`
text in addition to the `(index, value)` entries, so the arrays one would
obtain from `"(a)"` and `"([0]=a)"` — equal entries, different sources —
compare unequal, while the value comparison against a plain list ignores
both the indices and the source text. -/
theorem bash_array_eq_needs_source :
    (∀ a b : BashArray,
      BashArray.beq a b = true ↔ a.source = b.source ∧ contentBeq a.content b.content = true) ∧
    contentBeq [((0 : Int), ⟨strBytes "a", strBytes "a"⟩)]
      [((0 : Int), ⟨strBytes "a", strBytes "a"⟩)] = true ∧
    BashArray.beq ⟨strBytes "(a)", [((0 : Int), ⟨strBytes "a", strBytes "a"⟩)]⟩
      ⟨strBytes "([0]=a)", [((0 : Int), ⟨strBytes "a", strBytes "a"⟩)]⟩ = false ∧
    BashArray.eqValues ⟨strBytes "(a)", [((0 : Int), ⟨strBytes "a", strBytes "a"⟩)]⟩
      [strBytes "a"] = true ∧
    BashArray.eqValues ⟨strBytes "([0]=a)", [((0 : Int), ⟨strBytes "a", strBytes "a"⟩)]⟩
      [strBytes "a"] = true ∧
    BashArray.eqValues ⟨strBytes "([5]=a)", [((5 : Int), ⟨strBytes "a", strBytes "a"⟩)]⟩
      [strBytes "a"] = true := by
  refine ⟨fun a b => ?_, by decide, by decide, by decide, by decide, by decide⟩
  simp [BashArray.beq]

/-- C4: the oracle invocation result of `rbash_at` is the captured stdout
bytes exactly when the subprocess exit status is a success; otherwise it is
an error whose message takes exactly one of four shapes — (code, stderr),
(code only), (stderr only), (neither) — selected by whether an exit code is
available and whether the trimmed stderr text is non-empty. -/
theorem rbash_result_shapes :
    ∀ o : ProcessOutput,
      (rbash_result o = .ok o.stdout ↔ o.success = true) ∧
      (o.success = false →
        (∃ c, o.code = some c ∧ trimIsEmpty o.stderr = false ∧
          rbash_result o = .error (msgCodeStderr c o.stderr)) ∨
        (∃ c, o.code = some c ∧ trimIsEmpty o.stderr = true ∧
          rbash_result o = .error (msgCodeOnly c)) ∨
        (o.code = none ∧ trimIsEmpty o.stderr = false ∧
          rbash_result o = .error (msgStderrOnly o.stderr)) ∨
        (o.code = none ∧ trimIsEmpty o.stderr = true ∧
          rbash_result o = .error msgNeither)) := by
  intro o
  constructor
  · constructor
    · intro h
      by_contra hs
      have hs' : o.success = false := by
        cases hsv : o.success
        · rfl
        · exact absurd hsv hs
      rw [rbash_result, if_neg (by simp [hs'])] at h
      rcases hc : o.code with - | c <;> rcases ht : trimIsEmpty o.stderr <;>
        simp [hc, ht] at h
    · intro h
      simp [rbash_result, h]
  · intro hs
    rw [rbash_result, if_neg (by simp [hs])]
    rcases hc : o.code with - | c <;> rcases ht : trimIsEmpty o.stderr
    · exact Or.inr (Or.inr (Or.inl ⟨rfl, rfl, rfl⟩))
    · exact Or.inr (Or.inr (Or.inr ⟨rfl, rfl, rfl⟩))
    · exact Or.inl ⟨c, rfl, rfl, rfl⟩
    · exact Or.inr (Or.inl ⟨c, rfl, rfl, rfl⟩)

/-- C4, witness at a concrete failed invocation (exit code 55, empty
stderr): the (code only) shape is selected. -/
theorem rbash_result_shapes_witness :
    (∃ c, (⟨false, some 55, [], []⟩ : ProcessOutput).code = some c ∧
      trimIsEmpty (⟨false, some 55, [], []⟩ : ProcessOutput).stderr = false ∧
      rbash_result ⟨false, some 55, [], []⟩ =
        .error (msgCodeStderr c (⟨false, some 55, [], []⟩ : ProcessOutput).stderr)) ∨
    (∃ c, (⟨false, some 55, [], []⟩ : ProcessOutput).code = some c ∧
      trimIsEmpty (⟨false, some 55, [], []⟩ : ProcessOutput).stderr = true ∧
      rbash_result ⟨false, some 55, [], []⟩ = .error (msgCodeOnly c)) ∨
    ((⟨false, some 55, [], []⟩ : ProcessOutput).code = none ∧
      trimIsEmpty (⟨false, some 55, [], []⟩ : ProcessOutput).stderr = false ∧
      rbash_result ⟨false, some 55, [], []⟩ =
        .error (msgStderrOnly (⟨false, some 55, [], []⟩ : ProcessOutput).stderr)) ∨
    ((⟨false, some 55, [], []⟩ : ProcessOutput).code = none ∧
      trimIsEmpty (⟨false, some 55, [], []⟩ : ProcessOutput).stderr = true ∧
      rbash_result ⟨false, some 55, [], []⟩ = .error msgNeither) :=
  (rbash_result_shapes ⟨false, some 55, [], []⟩).2 rfl

/-- Helper: `position61` finds nothing exactly when the line has no `=`. -/
theorem position61_eq_none_iff (l : List Nat) :
    legacy.position61 l = none ↔ (61 : Nat) ∉ l := by
  induction l with
  | nil => simp [legacy.position61]
  | cons c cs ih =>
    by_cases hc : c = 61
    · subst hc
      simp [legacy.position61]
    · rw [legacy.position61, if_neg (by simp [hc])]
      simp only [Option.map_eq_none', ih, List.mem_cons, not_or]
      constructor
      · intro h
        exact ⟨fun h61 => hc h61.symm, h⟩
      · intro h
        exact h.2

/-- Helper: a hit of `position61` is the first `=` in the line. -/
theorem position61_eq_some (l : List Nat) (j : Nat) (h : legacy.position61 l = some j) :
    j < l.length ∧ l.getD j 0 = 61 ∧ (61 : Nat) ∉ l.take j := by
  induction l generalizing j with
  | nil => simp [legacy.position61] at h
  | cons c cs ih =>
    by_cases hc : c = 61
    · subst hc
      simp [legacy.position61] at h
      subst h
      simp
    · rw [legacy.position61, if_neg (by simp [hc])] at h
      rcases Option.map_eq_some'.mp h with ⟨i, hi, rfl⟩
      obtain ⟨h1, h2, h3⟩ := ih i hi
      refine ⟨by simpa using h1, by simpa using h2, ?_⟩
      intro hmem
      rcases List.mem_cons.mp (by simpa using hmem) with h61 | h61
      · exact hc h61.symm
      · exact h3 h61

/-- Helper: success of `mapE` is pointwise success of the function. -/
theorem mapE_ok_iff {α β ε : Type} (f : α → Except ε β) (xs : List α) (l : List β) :
    legacy.mapE f xs = .ok l ↔ List.Forall₂ (fun x y => f x = .ok y) xs l := by
  induction xs generalizing l with
  | nil =>
    constructor
    · intro h
      have : l = [] := by simpa [legacy.mapE] using h.symm
      subst this
      exact List.Forall₂.nil
    · intro h
      cases h
      simp [legacy.mapE]
  | cons x xs ih =>
    constructor
    · intro h
      rw [legacy.mapE] at h
      cases hfx : f x with
      | error e =>
        rw [hfx] at h
        simp at h
      | ok y =>
        rw [hfx] at h
        cases hm : legacy.mapE f xs with
        | error e =>
          rw [hm] at h
          simp [Except.map] at h
        | ok ys =>
          rw [hm] at h
          simp only [Except.map, Except.ok.injEq] at h
          subst h
          exact List.Forall₂.cons hfx ((ih ys).mp hm)
    · intro h
      cases h with
      | cons hxy htail =>
        rw [legacy.mapE, hxy, (ih _).mpr htail]
        simp [Except.map]

/-- Helper: any error of `mapE` is the error of some element. -/
theorem mapE_error_iff {α β ε : Type} (f : α → Except ε β) (xs : List α) :
    (∃ e, legacy.mapE f xs = .error e) ↔ ∃ x ∈ xs, ∃ e, f x = .error e := by
  induction xs with
  | nil => simp [legacy.mapE]
  | cons x xs ih =>
    rw [legacy.mapE]
    cases hfx : f x with
    | error e =>
      simp only [List.mem_cons]
      constructor
      · intro _
        exact ⟨x, Or.inl rfl, e, hfx⟩
      · intro _
        exact ⟨e, rfl⟩
    | ok y =>
      have hmap : ∀ e, ((legacy.mapE f xs).map (fun ys => y :: ys) = Except.error e) ↔
          legacy.mapE f xs = .error e := by
        intro e
        cases hm : legacy.mapE f xs <;> simp [Except.map]
      constructor
      · rintro ⟨e, he⟩
        obtain ⟨z, hz, e', he'⟩ := ih.mp ⟨e, (hmap e).mp he⟩
        exact ⟨z, List.mem_cons_of_mem _ hz, e', he'⟩
      · rintro ⟨z, hz, e', he'⟩
        rcases List.mem_cons.mp hz with rfl | hz
        · rw [hfx] at he'
          simp at he'
        · obtain ⟨e, he⟩ := ih.mpr ⟨z, hz, e', he'⟩
          exact ⟨e, (hmap e).mpr he⟩

/-- Helper: the error of `mapE` is the error of some element. -/
theorem mapE_error_mem {α β ε : Type} (f : α → Except ε β) (xs : List α) (e : ε)
    (h : legacy.mapE f xs = .error e) : ∃ x ∈ xs, f x = .error e := by
  induction xs with
  | nil => simp [legacy.mapE] at h
  | cons x xs ih =>
    rw [legacy.mapE] at h
    cases hfx : f x with
    | error e' =>
      rw [hfx] at h
      injection h with h
      exact ⟨x, List.mem_cons_self x xs, by rw [hfx, h]⟩
    | ok y =>
      rw [hfx] at h
      cases hm : legacy.mapE f xs with
      | error e' =>
        rw [hm] at h
        simp only [Except.map, Except.error.injEq] at h
        subst h
        obtain ⟨z, hz, hez⟩ := ih hm
        exact ⟨z, List.mem_cons_of_mem _ hz, hez⟩
      | ok ys =>
        rw [hm] at h
        simp [Except.map] at h

/-- Helper: error characterization of one parsed line. -/
theorem parseLine_error_iff (line : List Nat) (e : String × List Nat) :
    legacy.parseLine line = .error e ↔
      ((61 : Nat) ∉ line ∧ e = ("missing variable assignment", line)) := by
  rw [legacy.parseLine]
  cases hp : legacy.position61 line with
  | none =>
    rw [position61_eq_none_iff] at hp
    simp [hp, eq_comm]
  | some j =>
    obtain ⟨h1, h2, -⟩ := position61_eq_some line j hp
    have hmem : (61 : Nat) ∈ line := by
      rw [List.getD_eq_getElem line 0 h1] at h2
      rw [← h2]
      exact List.getElem_mem h1
    simp [hmem]

/-- C8: `parse_vars` processes exactly the non-empty lines of the oracle
output; it fails with the "missing variable assignment" error exactly when
some such line has no `=` byte (the failing line is carried in the message),
and on success each entry is the line split at its first `=` into name and
value. -/
theorem parse_vars_spec :
    ∀ text : List Nat,
      ((∃ e, legacy.parse_vars text = .error e) ↔
        ∃ line ∈ legacy.nonEmptyLines text, (61 : Nat) ∉ line) ∧
      (∀ e, legacy.parse_vars text = .error e →
        e.1 = "missing variable assignment" ∧
          e.2 ∈ legacy.nonEmptyLines text ∧ (61 : Nat) ∉ e.2) ∧
      (∀ l, legacy.parse_vars text = .ok l →
        List.Forall₂
          (fun line entry =>
            ∃ j, j < line.length ∧ line.getD j 0 = 61 ∧ (61 : Nat) ∉ line.take j ∧
              entry = (line.take j, legacy.BashValue.new (line.drop (j + 1))))
          (legacy.nonEmptyLines text) l) := by
  intro text
  refine ⟨?_, ?_, ?_⟩
  · rw [legacy.parse_vars, mapE_error_iff]
    constructor
    · rintro ⟨line, hline, e, he⟩
      exact ⟨line, hline, ((parseLine_error_iff line e).mp he).1⟩
    · rintro ⟨line, hline, hno⟩
      exact ⟨line, hline, ("missing variable assignment", line),
        (parseLine_error_iff line _).mpr ⟨hno, rfl⟩⟩
  · intro e he
    obtain ⟨line, hline, hel⟩ := mapE_error_mem _ _ _ he
    obtain ⟨hno, rfl⟩ := (parseLine_error_iff line e).mp hel
    exact ⟨rfl, hline, hno⟩
  · intro l hl
    rw [legacy.parse_vars, mapE_ok_iff] at hl
    refine hl.imp ?_
    intro line entry hok
    rw [legacy.parseLine] at hok
    cases hp : legacy.position61 line with
    | none =>
      rw [hp] at hok
      simp at hok
    | some j =>
      rw [hp] at hok
      injection hok with hok
      obtain ⟨h1, h2, h3⟩ := position61_eq_some line j hp
      exact ⟨j, h1, h2, h3, hok.symm⟩

/-- C8, witness at the concrete output `"A=1\n\nB=2"` (one blank line that
is skipped, two assignment lines that are split at `=`). -/
theorem parse_vars_spec_witness :
    List.Forall₂
      (fun line entry =>
        ∃ j, j < line.length ∧ line.getD j 0 = 61 ∧ (61 : Nat) ∉ line.take j ∧
          entry = (line.take j, legacy.BashValue.new (line.drop (j + 1))))
      (legacy.nonEmptyLines (strBytes "A=1\n\nB=2"))
      [(strBytes "A", legacy.BashValue.new (strBytes "1")),
        (strBytes "B", legacy.BashValue.new (strBytes "2"))] :=
  (parse_vars_spec (strBytes "A=1\n\nB=2")).2.2 _ rfl

/-- Helper: characterization of a successful `.map(f).transpose()?` step. -/
theorem optField_eq_some {α β : Type} (f : α → Option β) (v? : Option α) (r : Option β)
    (h : optField f v? = some r) :
    (r = none ↔ v? = none) ∧ (∀ v, v? = some v → ∃ y, f v = some y ∧ r = some y) := by
  cases v? with
  | none =>
    simp only [optField, Option.some.injEq] at h
    subst h
    simp
  | some v =>
    simp only [optField, Option.map_eq_some'] at h
    obtain ⟨y, hy, rfl⟩ := h
    refine ⟨by simp, fun v' hv' => ?_⟩
    injection hv' with hv'
    subst hv'
    exact ⟨y, hy, rfl⟩

/-- Helper: case analysis of `Option::or_else`. -/
theorem orElse_cases {α : Type} (a b : Option α) :
    ((a.orElse fun _ => b) = none ↔ a = none ∧ b = none) ∧
      (∀ v, a = some v → (a.orElse fun _ => b) = some v) ∧
      (a = none → (a.orElse fun _ => b) = b) := by
  cases a <;> simp [Option.orElse]

/-- C7: for a successfully parsed preset, the `kver`, `config` and
`microcode` fields are absent exactly when both `<name>_<field>` and
`ALL_<field>` are absent from the environment (the `ALL_` fallback), while
`image`, `uki`, `efi_image` and `options` are absent exactly when
`<name>_<field>` is absent — in particular a preset without its own
`<name>_options` gets `options = none` regardless of any `ALL_options` —
and a present `<name>_kver` wins over the fallback. -/
theorem preset_field_resolution :
    ∀ (o : ShellOracle) (fname : BashString) (env : EnvM) (name : BashString) (p : Preset),
      parse_preset o fname env name = some p →
      (p.kver = none ↔
        varLookup env name.raw (strBytes "kver") = none ∧
          varLookup env (strBytes "ALL") (strBytes "kver") = none) ∧
      (p.config = none ↔
        varLookup env name.raw (strBytes "config") = none ∧
          varLookup env (strBytes "ALL") (strBytes "config") = none) ∧
      (p.microcode = none ↔
        varLookup env name.raw (strBytes "microcode") = none ∧
          varLookup env (strBytes "ALL") (strBytes "microcode") = none) ∧
      (p.image = none ↔ varLookup env name.raw (strBytes "image") = none) ∧
      (p.uki = none ↔ varLookup env name.raw (strBytes "uki") = none) ∧
      (p.efi_image = none ↔ varLookup env name.raw (strBytes "efi_image") = none) ∧
      (p.options = none ↔ varLookup env name.raw (strBytes "options") = none) ∧
      (∀ v, varLookup env name.raw (strBytes "kver") = some v →
        ∃ s, presetAsString o v = some s ∧ p.kver = some s) ∧
      (∀ v, varLookup env name.raw (strBytes "kver") = none →
        varLookup env (strBytes "ALL") (strBytes "kver") = some v →
        ∃ s, presetAsString o v = some s ∧ p.kver = some s) := by
  intro o fname env name p h
  rw [parse_preset] at h
  simp only [bind, Option.bind_eq_some, Option.pure_def, Option.some.injEq] at h
  obtain ⟨kver, hkver, config, hconfig, uki, huki, efi, hefi, image, himage, options, hoptions,
    microcode, hmicrocode, hp⟩ := h
  subst hp
  obtain ⟨hkn, hks⟩ := optField_eq_some _ _ _ hkver
  obtain ⟨hcn, -⟩ := optField_eq_some _ _ _ hconfig
  obtain ⟨hun, -⟩ := optField_eq_some _ _ _ huki
  obtain ⟨hen, -⟩ := optField_eq_some _ _ _ hefi
  obtain ⟨hin, -⟩ := optField_eq_some _ _ _ himage
  obtain ⟨hon, -⟩ := optField_eq_some _ _ _ hoptions
  obtain ⟨hmn, -⟩ := optField_eq_some _ _ _ hmicrocode
  refine ⟨?_, ?_, ?_, hin, hun, hen, hon, ?_, ?_⟩
  · rw [hkn, (orElse_cases _ _).1]
  · rw [hcn, (orElse_cases _ _).1]
  · rw [hmn, (orElse_cases _ _).1]
  · intro v hv
    exact hks v ((orElse_cases _ _).2.1 v hv)
  · intro v hv hall
    refine hks v ?_
    rw [(orElse_cases _ _).2.2 hv]
    exact hall

/-- Witness preset filename. -/
def wsFname : BashString :=
  ⟨strBytes "example", strBytes "example"⟩

/-- Witness preset name. -/
def wsName : BashString :=
  ⟨strBytes "dflt", strBytes "dflt"⟩

/-- Witness environment: `ALL_kver` set, `dflt_image` set, no
`dflt_options`. -/
def wsEnv : EnvM :=
  [(strBytes "ALL_kver", .string ⟨strBytes "vml", strBytes "vml"⟩),
    (strBytes "dflt_image", .string ⟨strBytes "img", strBytes "img"⟩)]

/-- Witness parsed preset: `kver` inherited from `ALL_kver`, `image` from
its own variable, everything else absent. -/
def presetW : Preset :=
  ⟨wsFname, wsName, some ⟨strBytes "vml", strBytes "vml"⟩, none,
    some ⟨strBytes "img", strBytes "img"⟩, none, none, none, none⟩

/-- C7, witness at the concrete environment `wsEnv` with the concrete
witness oracle. -/
theorem preset_field_resolution_witness :
    (presetW.kver = none ↔
      varLookup wsEnv wsName.raw (strBytes "kver") = none ∧
        varLookup wsEnv (strBytes "ALL") (strBytes "kver") = none) ∧
    (presetW.config = none ↔
      varLookup wsEnv wsName.raw (strBytes "config") = none ∧
        varLookup wsEnv (strBytes "ALL") (strBytes "config") = none) ∧
    (presetW.microcode = none ↔
      varLookup wsEnv wsName.raw (strBytes "microcode") = none ∧
        varLookup wsEnv (strBytes "ALL") (strBytes "microcode") = none) ∧
    (presetW.image = none ↔ varLookup wsEnv wsName.raw (strBytes "image") = none) ∧
    (presetW.uki = none ↔ varLookup wsEnv wsName.raw (strBytes "uki") = none) ∧
    (presetW.efi_image = none ↔ varLookup wsEnv wsName.raw (strBytes "efi_image") = none) ∧
    (presetW.options = none ↔ varLookup wsEnv wsName.raw (strBytes "options") = none) ∧
    (∀ v, varLookup wsEnv wsName.raw (strBytes "kver") = some v →
      ∃ s, presetAsString idOracle v = some s ∧ presetW.kver = some s) ∧
    (∀ v, varLookup wsEnv wsName.raw (strBytes "kver") = none →
      varLookup wsEnv (strBytes "ALL") (strBytes "kver") = some v →
      ∃ s, presetAsString idOracle v = some s ∧ presetW.kver = some s) :=
  preset_field_resolution idOracle wsFname wsEnv wsName presetW rfl

/-- Helper: success of `mapO` is pointwise success of the function. -/
theorem mapO_ok_iff {α β : Type} (f : α → Option β) (xs : List α) (ys : List β) :
    mapO f xs = some ys ↔ List.Forall₂ (fun x y => f x = some y) xs ys := by
  induction xs generalizing ys with
  | nil =>
    constructor
    · intro h
      have : ys = [] := by simpa [mapO] using h.symm
      subst this
      exact List.Forall₂.nil
    · intro h
      cases h
      simp [mapO]
  | cons x xs ih =>
    constructor
    · intro h
      rw [mapO] at h
      cases hfx : f x with
      | none =>
        rw [hfx] at h
        simp at h
      | some y =>
        rw [hfx] at h
        cases hm : mapO f xs with
        | none =>
          rw [hm] at h
          simp at h
        | some zs =>
          rw [hm] at h
          simp only [Option.map_some', Option.some.injEq] at h
          subst h
          exact List.Forall₂.cons hfx ((ih zs).mp hm)
    · intro h
      cases h with
      | cons hxy htail =>
        rw [mapO, hxy, (ih _).mpr htail]
        rfl

/-- Helper: `mapO` succeeds when the function succeeds on every element. -/
theorem mapO_total {α β : Type} (f : α → Option β) (xs : List α)
    (h : ∀ x ∈ xs, ∃ y, f x = some y) : ∃ ys, mapO f xs = some ys := by
  induction xs with
  | nil => exact ⟨[], rfl⟩
  | cons x xs ih =>
    obtain ⟨y, hy⟩ := h x (List.mem_cons_self x xs)
    obtain ⟨ys, hys⟩ := ih (fun z hz => h z (List.mem_cons_of_mem _ hz))
    exact ⟨y :: ys, by rw [mapO, hy, hys]; rfl⟩

/-- Helper: each element on the right of a `Forall₂` is related to some
member of the left list. -/
theorem forall₂_mem_right {α β : Type} {R : α → β → Prop} {xs : List α} {ys : List β}
    (h : List.Forall₂ R xs ys) : ∀ y ∈ ys, ∃ x ∈ xs, R x y := by
  induction h with
  | nil => intro y hy; cases hy
  | cons hxy htail ih =>
    intro y hy
    rcases List.mem_cons.mp hy with rfl | hy
    · exact ⟨_, List.mem_cons_self _ _, hxy⟩
    · obtain ⟨x, hx, hrx⟩ := ih y hy
      exact ⟨x, List.mem_cons_of_mem _ hx, hrx⟩

/-- Helper: `from_raw` yields a canonical scalar. -/
theorem from_raw_canon {o : ShellOracle} {b : List Nat} {s : BashString}
    (h : BashString.from_raw o b = some s) : CanonStr o s := by
  simp only [BashString.from_raw, Option.map_eq_some'] at h
  obtain ⟨e, he, rfl⟩ := h
  exact he

/-- Helper: `reescape` yields a canonical scalar. -/
theorem reescape_str_canon {o : ShellOracle} {s t : BashString}
    (h : BashString.reescape o s = some t) : CanonStr o t :=
  from_raw_canon h

/-- Helper: `BashArray::reescape` yields a canonical array. -/
theorem reescape_arr_canon {o : ShellOracle} {arr a : BashArray}
    (h : BashArray.reescape o arr = some a) : CanonArr o a := by
  simp only [BashArray.reescape, Option.map_eq_some'] at h
  obtain ⟨strs, hstrs, rfl⟩ := h
  have hv : BashArray.valuesList
      ⟨renderParen (strs.map BashString.escaped),
        strs.enum.map (fun p => ((p.1 : Int), p.2))⟩ = strs := by
    simp only [BashArray.valuesList, List.map_map]
    have hcomp : (Prod.snd ∘ fun p : Nat × BashString => ((p.1 : Int), p.2)) = Prod.snd :=
      funext (fun p => rfl)
    rw [hcomp, List.enum_map_snd]
  refine ⟨?_, by rw [hv], by rw [hv]⟩
  rw [hv]
  intro s hs
  obtain ⟨x, -, hx⟩ := forall₂_mem_right ((mapO_ok_iff _ _ _).mp hstrs) s hs
  exact from_raw_canon hx

/-- Helper: canonicity propagated through `optField`. -/
theorem optField_canon {α β : Type} (f : α → Option β) (P : β → Prop)
    (hf : ∀ v y, f v = some y → P y) (v? : Option α) (r : Option β)
    (h : optField f v? = some r) : ∀ y, r = some y → P y := by
  cases v? with
  | none =>
    simp only [optField, Option.some.injEq] at h
    subst h
    intro y hy
    cases hy
  | some v =>
    simp only [optField, Option.map_eq_some'] at h
    obtain ⟨y, hy, rfl⟩ := h
    intro y' hy'
    injection hy' with hy'
    subst hy'
    exact hf v y hy

/-- Helper: `as_string` of the config loader yields a canonical scalar. -/
theorem configAsString_canon {o : ShellOracle} {v : BashValueE} {s : BashString}
    (h : configAsString o v = some s) : CanonStr o s := by
  cases v with
  | string t =>
    simp only [configAsString, bind, Option.bind_eq_some] at h
    obtain ⟨str, -, hre⟩ := h
    exact reescape_str_canon hre
  | array arr =>
    simp only [configAsString, bind, Option.bind_eq_some] at h
    obtain ⟨str, -, hre⟩ := h
    exact reescape_str_canon hre

/-- Helper: `as_array` of the config loader yields a canonical array. -/
theorem configAsArray_canon {o : ShellOracle} {v : BashValueE} {a : BashArray}
    (h : configAsArray o v = some a) : CanonArr o a := by
  cases v with
  | string t =>
    simp only [configAsArray, bind, Option.bind_eq_some] at h
    obtain ⟨arr, -, hre⟩ := h
    exact reescape_arr_canon hre
  | array arr =>
    simp only [configAsArray, bind, Option.bind_eq_some] at h
    obtain ⟨arr, -, hre⟩ := h
    exact reescape_arr_canon hre

/-- Helper: every field of a loaded config is canonical. -/
theorem load_config_canon (o : ShellOracle) (file : List Nat) (c : Config)
    (h : load_config o file = some c) :
    (∀ a, c.modules = some a → CanonArr o a) ∧
      (∀ a, c.binaries = some a → CanonArr o a) ∧
      (∀ a, c.files = some a → CanonArr o a) ∧
      (∀ a, c.hooks = some a → CanonArr o a) ∧
      (∀ s, c.compression = some s → CanonStr o s) ∧
      (∀ a, c.compression_options = some a → CanonArr o a) ∧
      (∀ s, c.module_decompress = some s → CanonStr o s) := by
  rw [load_config] at h
  simp only [bind, Option.bind_eq_some, Option.pure_def, Option.some.injEq] at h
  obtain ⟨env, -, m, hm, b, hb, fl, hfl, hk, hhk, comp, hcomp, co, hco, md, hmd, hrec⟩ := h
  subst hrec
  exact
    ⟨optField_canon _ _ (fun v y hy => configAsArray_canon hy) _ _ hm,
      optField_canon _ _ (fun v y hy => configAsArray_canon hy) _ _ hb,
      optField_canon _ _ (fun v y hy => configAsArray_canon hy) _ _ hfl,
      optField_canon _ _ (fun v y hy => configAsArray_canon hy) _ _ hhk,
      optField_canon _ _ (fun v y hy => configAsString_canon hy) _ _ hcomp,
      optField_canon _ _ (fun v y hy => configAsArray_canon hy) _ _ hco,
      optField_canon _ _ (fun v y hy => configAsString_canon hy) _ _ hmd⟩

/-- Helper: a scalar-shaped value text classifies as a scalar with the
expected raw bytes. -/
theorem classify_scalar (o : ShellOracle) (txt : List Nat) (s : BashString)
    (h : ScalarReload o txt s) :
    classifyValue o txt = some (.string ⟨txt, s.raw⟩) := by
  obtain ⟨hno, hun⟩ := h
  rw [classifyValue, if_neg (by simp [hno]), BashString.from_escaped, hun]
  rfl

/-- Helper: re-escaping a scalar with the raw bytes of a canonical scalar
returns that canonical scalar. -/
theorem string_reload (o : ShellOracle) (s : BashString) (txt : List Nat)
    (hc : CanonStr o s) :
    configAsString o (.string ⟨txt, s.raw⟩) = some s := by
  have hred : configAsString o (.string ⟨txt, s.raw⟩) =
      BashString.reescape o ⟨txt, s.raw⟩ := rfl
  rw [hred, BashString.reescape, BashString.from_raw]
  cases s with
  | mk e r =>
    rw [show (⟨txt, r⟩ : BashString).as_raw = r from rfl, hc]
    rfl

/-- Helper: probe entries that evaluate to the expected raws decode into
entries with those raws. -/
theorem decode_entries (o : ShellOracle) (pairs : List (Int × List Nat))
    (vals : List BashString)
    (h : List.Forall₂ (fun (q : Int × List Nat) (s : BashString) => unescape o q.2 = some s.raw)
      pairs vals) :
    ∃ entries,
      mapO (fun p => (BashString.from_escaped o p.2).map (fun s => (p.1, s))) pairs =
          some entries ∧
        List.Forall₂ (fun (e : Int × BashString) (s : BashString) => e.2.raw = s.raw)
          entries vals := by
  induction h with
  | nil => exact ⟨[], rfl, List.Forall₂.nil⟩
  | @cons q s pairs vals hqs htail ih =>
    obtain ⟨entries, hmap, hfa⟩ := ih
    refine ⟨(q.1, ⟨q.2, s.raw⟩) :: entries, ?_, List.Forall₂.cons rfl hfa⟩
    rw [mapO, BashString.from_escaped, hqs, hmap]
    rfl

/-- Helper: an array-shaped value text classifies as an array whose value
raws match the original array pointwise. -/
theorem classify_array (o : ShellOracle) (txt : List Nat) (a : BashArray)
    (h : ArrayReload o txt a) :
    ∃ arr', classifyValue o txt = some (.array arr') ∧
      List.Forall₂ (fun (x y : BashString) => x.raw = y.raw) arr'.valuesList a.valuesList := by
  obtain ⟨hyes, hyes', pairs, hpairs, hfa⟩ := h
  obtain ⟨entries, hmap, hraws⟩ := decode_entries o pairs a.valuesList hfa
  refine ⟨⟨txt, entries⟩, ?_, ?_⟩
  · rw [classifyValue, if_pos hyes, BashArray.new, parse_array_content, if_neg (by simp [hyes']),
      hpairs]
    have hbind :
        (some pairs).bind
            (fun ps => mapO (fun p => (BashString.from_escaped o p.2).map (fun s => (p.1, s))) ps) =
          mapO (fun p => (BashString.from_escaped o p.2).map (fun s => (p.1, s))) pairs := rfl
    rw [hbind, hmap]
    rfl
  · have hv : BashArray.valuesList ⟨txt, entries⟩ = entries.map Prod.snd := rfl
    rw [hv, List.forall₂_map_left_iff]
    exact hraws

/-- Helper: re-escaping an array whose value raws match a canonical array
pointwise returns that canonical array. -/
theorem array_reload (o : ShellOracle) (arr a : BashArray) (hc : CanonArr o a)
    (hraws : List.Forall₂ (fun (x y : BashString) => x.raw = y.raw)
      arr.valuesList a.valuesList) :
    BashArray.reescape o arr = some a := by
  obtain ⟨hcanon, hsrc, hcnt⟩ := hc
  rw [BashArray.reescape]
  have hgen : ∀ (xs ys : List BashString),
      List.Forall₂ (fun (x y : BashString) => x.raw = y.raw) xs ys →
      (∀ s ∈ ys, CanonStr o s) →
      List.Forall₂ (fun x y => BashString.from_raw o x.raw = some y) xs ys := by
    intro xs ys h
    induction h with
    | nil => exact fun _ => List.Forall₂.nil
    | @cons x y xs ys hxy htail ih =>
      intro hcan
      refine List.Forall₂.cons ?_ (ih (fun s hs => hcan s (List.mem_cons_of_mem _ hs)))
      have hy : CanonStr o y := hcan y (List.mem_cons_self y ys)
      rw [BashString.from_raw, hxy, hy]
      cases y
      rfl
  have hmap : mapO (fun s => BashString.from_raw o s.raw) arr.valuesList =
      some a.valuesList :=
    (mapO_ok_iff _ _ _).mpr (hgen _ _ hraws hcanon)
  rw [hmap, Option.map_some']
  congr 1
  cases a with
  | mk src cnt =>
    simp only [BashArray.mk.injEq]
    exact ⟨hsrc.symm, hcnt.symm⟩

/-- Helper: lookup in the classified environment is classification of the
lookup in the raw environment. -/
theorem lookup_classified (o : ShellOracle) (env : List (List Nat × List Nat)) (envc : EnvM)
    (h : List.Forall₂
      (fun (p : List Nat × List Nat) (q : List Nat × BashValueE) =>
        q.1 = p.1 ∧ classifyValue o p.2 = some q.2)
      env envc)
    (name : List Nat) :
    envGet envc name = (List.lookup name env).bind (classifyValue o) := by
  induction env generalizing envc with
  | nil =>
    cases h
    rfl
  | cons p ps ih =>
    cases h with
    | cons hpq htail =>
      rename_i q qs
      obtain ⟨pk, pv⟩ := p
      obtain ⟨qk, qv⟩ := q
      obtain ⟨h1, h2⟩ := hpq
      have h1' : qk = pk := h1
      subst h1'
      have h2' : classifyValue o pv = some qv := h2
      show List.lookup name ((qk, qv) :: qs) = (List.lookup name ((qk, pv) :: ps)).bind _
      rw [List.lookup, List.lookup]
      cases hbeq : name == qk with
      | true => rw [← h2']; rfl
      | false => exact ih qs htail

/-- Helper: computing the sourced environment of a file whose entries all
classify. -/
theorem sourceModel_eq (o : ShellOracle) (file : List Nat)
    (env : List (List Nat × List Nat)) (hsf : o.sourceFile file = some env)
    (hcls : ∀ p ∈ env, ∃ v, classifyValue o p.2 = some v) :
    ∃ envc, sourceModel o file = some envc ∧
      List.Forall₂
        (fun (p : List Nat × List Nat) (q : List Nat × BashValueE) =>
          q.1 = p.1 ∧ classifyValue o p.2 = some q.2)
        env envc := by
  obtain ⟨envc, henvc⟩ :=
    mapO_total (fun p => (classifyValue o p.2).map (fun v => (p.1, v))) env
      (fun p hp => by
        obtain ⟨v, hv⟩ := hcls p hp
        exact ⟨(p.1, v), by simp [hv]⟩)
  refine ⟨envc, ?_, ?_⟩
  · rw [sourceModel, hsf]
    exact henvc
  · refine ((mapO_ok_iff _ _ _).mp henvc).imp ?_
    intro p q hpq
    simp only [Option.map_eq_some'] at hpq
    obtain ⟨v, hv, rfl⟩ := hpq
    exact ⟨rfl, hv⟩

/-- Helper: one array field of the saved file reloads to itself. -/
theorem optField_reload_arr (o : ShellOracle) (env : List (List Nat × List Nat)) (envc : EnvM)
    (name : List Nat) (fld : Option BashArray)
    (henv : envGet envc name = (List.lookup name env).bind (classifyValue o))
    (hlk : reloadsArr o env name fld)
    (hcanon : ∀ a, fld = some a → CanonArr o a) :
    optField (configAsArray o) (envGet envc name) = some fld := by
  cases fld with
  | none =>
    have hlk' : List.lookup name env = none := hlk
    rw [henv, hlk']
    rfl
  | some a =>
    obtain ⟨txt, hl, hrel⟩ := hlk
    obtain ⟨arr, hcl, hraws⟩ := classify_array o txt a hrel
    rw [henv, hl]
    have hbind : (some txt).bind (classifyValue o) = classifyValue o txt := rfl
    rw [hbind, hcl]
    have hred : optField (configAsArray o) (some (.array arr)) =
        (BashArray.reescape o arr).map some := rfl
    rw [hred, array_reload o arr a (hcanon a rfl) hraws]
    rfl

/-- Helper: one string field of the saved file reloads to itself. -/
theorem optField_reload_str (o : ShellOracle) (env : List (List Nat × List Nat)) (envc : EnvM)
    (name : List Nat) (fld : Option BashString)
    (henv : envGet envc name = (List.lookup name env).bind (classifyValue o))
    (hlk : reloadsStr o env name fld)
    (hcanon : ∀ s, fld = some s → CanonStr o s) :
    optField (configAsString o) (envGet envc name) = some fld := by
  cases fld with
  | none =>
    have hlk' : List.lookup name env = none := hlk
    rw [henv, hlk']
    rfl
  | some s =>
    obtain ⟨txt, hl, hrel⟩ := hlk
    rw [henv, hl]
    have hbind : (some txt).bind (classifyValue o) = classifyValue o txt := rfl
    rw [hbind, classify_scalar o txt s hrel]
    have hred : optField (configAsString o) (some (.string ⟨txt, s.raw⟩)) =
        (configAsString o (.string ⟨txt, s.raw⟩)).map some := rfl
    rw [hred, string_reload o s txt (hcanon s rfl)]
    rfl

/-- C2: a `Config` obtained from `load_config`, saved through its `Display`
serialization and sourced again, loads back field for field equal,
whatever whitespace and comments the original file had (the reloaded value
depends only on the loaded `Config`, not on the original file) — given the
spec-modelled behavior of the external interpreter on the saved script
(`SourcedSave`). -/
theorem config_save_load_roundtrip :
    ∀ (o : ShellOracle) (file : List Nat) (c : Config),
      load_config o file = some c → SourcedSave o c →
      load_config o (Config.display c) = some c := by
  intro o file c hload hsrc
  obtain ⟨cm, cb, cf, chk, cc, cco, cmd⟩ := load_config_canon o file c hload
  obtain ⟨env, hsf, hcls, hm, hb, hf2, hh, hc2, hco, hmd⟩ := hsrc
  obtain ⟨envc, hsm, hfa⟩ := sourceModel_eq o (Config.display c) env hsf hcls
  have henv := lookup_classified o env envc hfa
  rw [load_config]
  simp only [bind, Option.bind_eq_some, Option.pure_def, Option.some.injEq]
  exact ⟨envc, hsm,
    c.modules, optField_reload_arr o env envc _ c.modules (henv _) hm cm,
    c.binaries, optField_reload_arr o env envc _ c.binaries (henv _) hb cb,
    c.files, optField_reload_arr o env envc _ c.files (henv _) hf2 cf,
    c.hooks, optField_reload_arr o env envc _ c.hooks (henv _) hh chk,
    c.compression, optField_reload_str o env envc _ c.compression (henv _) hc2 cc,
    c.compression_options,
    optField_reload_arr o env envc _ c.compression_options (henv _) hco cco,
    c.module_decompress, optField_reload_str o env envc _ c.module_decompress (henv _) hmd cmd,
    rfl⟩

/-- Witness config file text. -/
def fileW : List Nat :=
  strBytes "COMPRESSION=zstd\nMODULES=(alpha beta)"

/-- Witness `MODULES` array after canonical re-escaping. -/
def modulesW : BashArray :=
  ⟨strBytes "(alpha beta)",
    [((0 : Int), ⟨strBytes "alpha", strBytes "alpha"⟩),
      ((1 : Int), ⟨strBytes "beta", strBytes "beta"⟩)]⟩

/-- Witness loaded config. -/
def configW : Config :=
  { modules := some modulesW, binaries := none, files := none, hooks := none,
    compression := some ⟨strBytes "zstd", strBytes "zstd"⟩, compression_options := none,
    module_decompress := none }

/-- C2, witness: the concrete config loaded from `fileW` through the
witness oracle reloads from its own serialization. -/
theorem config_save_load_roundtrip_witness :
    load_config idOracle (Config.display configW) = some configW := by
  refine config_save_load_roundtrip idOracle fileW configW rfl ?_
  refine ⟨[(strBytes "MODULES", strBytes "(alpha beta)"),
    (strBytes "COMPRESSION", strBytes "zstd")], rfl, ?_, ?_, rfl, rfl, rfl, ?_, rfl, rfl⟩
  · intro p hp
    rcases List.mem_cons.mp hp with rfl | hp2
    · exact ⟨.array ⟨strBytes "(alpha beta)",
        [((0 : Int), ⟨strBytes "alpha", strBytes "alpha"⟩),
          ((1 : Int), ⟨strBytes "beta", strBytes "beta"⟩)]⟩, rfl⟩
    · rcases List.mem_cons.mp hp2 with rfl | hp3
      · exact ⟨.string ⟨strBytes "zstd", strBytes "zstd"⟩, rfl⟩
      · cases hp3
  · exact ⟨strBytes "(alpha beta)", rfl, rfl, rfl,
      [((0 : Int), strBytes "alpha"), ((1 : Int), strBytes "beta")], rfl,
      List.Forall₂.cons rfl (List.Forall₂.cons rfl List.Forall₂.nil)⟩
  · exact ⟨strBytes "zstd", rfl, rfl, rfl⟩

end MkinitcpioBench
